import Mathlib

/-!
# Verification of the pytorchfundamentals notebooks

Shallow embedding of the repository's own Python functions (the thin glue
code of the NLP notebooks: bag-of-words vectorizer, character tokenizer,
training/evaluation loops, minibatch construction and the text-generation
sampler), together with proofs of the specification's claims about them.

External framework calls (tensor kernels, autograd, optimizers, LSTM/BERT
forward passes) are modelled as abstract parameters; tensors of indices are
modelled as `List Nat`, float accumulators as `ℚ`, and fallible framework
calls as `Except`-valued functions.
-/

namespace PF

/-! ## Bag of words (2-representing-text.ipynb)

Python source:
```
def to_bow(wordvec,bow_vocab_size=vocab_size):
    res = torch.zeros(bow_vocab_size,dtype=torch.float32)
    for i in wordvec:
        if i<bow_vocab_size:
            res[i] += 1
    return res
```
-/

/-- `res[i] += 1` on a vector modelled as a list of counts: increment the
entry at position `i`, leaving the list unchanged when `i` is out of range
(the caller guards `i < bow_vocab_size`, so that never happens there). -/
def incr : List Nat → Nat → List Nat
  | [], _ => []
  | x :: t, 0 => (x + 1) :: t
  | x :: t, n + 1 => x :: incr t n

/-- `to_bow`: start from `torch.zeros(bow_vocab_size)` and bump the entry of
every index of `wordvec` that is below `bow_vocab_size`. -/
def to_bow (wordvec : List Nat) (bow_vocab_size : Nat) : List Nat :=
  wordvec.foldl
    (fun res i => if i < bow_vocab_size then incr res i else res)
    (List.replicate bow_vocab_size 0)

theorem incr_length (l : List Nat) (i : Nat) : (incr l i).length = l.length := by
  induction l generalizing i with
  | nil => rfl
  | cons x t ih =>
    cases i with
    | zero => rfl
    | succ n => simp [incr, ih]

theorem getD_incr (l : List Nat) (i k : Nat) (hi : i < l.length) :
    (incr l i).getD k 0 = if i = k then l.getD k 0 + 1 else l.getD k 0 := by
  induction l generalizing i k with
  | nil => simp at hi
  | cons x t ih =>
    cases i with
    | zero =>
      cases k with
      | zero => simp [incr]
      | succ m => simp [incr]
    | succ n =>
      cases k with
      | zero => simp [incr]
      | succ m =>
        have hn : n < t.length := by simpa using hi
        rw [incr, List.getD_cons_succ, List.getD_cons_succ, ih n m hn]
        rcases eq_or_ne n m with h | h
        · simp [h]
        · rw [if_neg h, if_neg (by omega)]

theorem to_bow_loop_length (wordvec : List Nat) (n : Nat) (res : List Nat) :
    (wordvec.foldl (fun res i => if i < n then incr res i else res) res).length
      = res.length := by
  induction wordvec generalizing res with
  | nil => rfl
  | cons a t ih =>
    by_cases h : a < n
    · simp [h, ih, incr_length]
    · simp [h, ih]

theorem to_bow_loop_getD (wordvec : List Nat) (n : Nat) (res : List Nat)
    (hres : res.length = n) (k : Nat) (hk : k < n) :
    (wordvec.foldl (fun res i => if i < n then incr res i else res) res).getD k 0
      = res.getD k 0 + wordvec.count k := by
  induction wordvec generalizing res with
  | nil => simp
  | cons a t ih =>
    by_cases h : a < n
    · have ha : a < res.length := by rw [hres]; exact h
      have hlen : (incr res a).length = n := by rw [incr_length, hres]
      by_cases hak : a = k
      · subst hak
        simp only [List.foldl_cons, if_pos h]
        rw [ih (incr res a) hlen, getD_incr res a a ha, if_pos rfl,
          List.count_cons_self]
        ring
      · simp only [List.foldl_cons, if_pos h]
        rw [ih (incr res a) hlen, getD_incr res a k ha, if_neg hak,
          List.count_cons_of_ne (fun hka => hak hka.symm)]
    · have hak : a ≠ k := fun hak => h (hak ▸ hk)
      simp only [List.foldl_cons, if_neg h]
      rw [ih res hres, List.count_cons_of_ne (fun hka => hak hka.symm)]

theorem to_bow_length (wordvec : List Nat) (n : Nat) :
    (to_bow wordvec n).length = n := by
  rw [to_bow, to_bow_loop_length, List.length_replicate]

theorem to_bow_getD (wordvec : List Nat) (n k : Nat) (hk : k < n) :
    (to_bow wordvec n).getD k 0 = wordvec.count k := by
  rw [to_bow, to_bow_loop_getD wordvec n _ (List.length_replicate _ _) k hk]
  simp

/-- C1: `to_bow(wordvec, bow_vocab_size)` returns a vector of exactly
`bow_vocab_size` entries, whose entry `k` equals the number of occurrences of
index `k` in `wordvec` for every `k < bow_vocab_size`; indices `≥
bow_vocab_size` contribute to no entry (the count below only counts
occurrences of `k`, and `k < bow_vocab_size`). -/
theorem to_bow_size_and_counts (wordvec : List Nat) (bow_vocab_size : Nat)
    (hpos : 0 < bow_vocab_size) :
    (to_bow wordvec bow_vocab_size).length = bow_vocab_size ∧
    ∀ k, k < bow_vocab_size →
      (to_bow wordvec bow_vocab_size).getD k 0 = wordvec.count k :=
  ⟨to_bow_length wordvec bow_vocab_size,
    fun k hk => to_bow_getD wordvec bow_vocab_size k hk⟩

theorem to_bow_size_and_counts_witness :
    0 < 5 ∧
    ((to_bow [1, 3, 1, 7, 0] 5).length = 5 ∧
      ∀ k, k < 5 → (to_bow [1, 3, 1, 7, 0] 5).getD k 0 = ([1, 3, 1, 7, 0] : List Nat).count k) :=
  ⟨by decide, to_bow_size_and_counts [1, 3, 1, 7, 0] 5 (by decide)⟩

/-- C2: the bag-of-words representation is order-insensitive: permuting
`wordvec` leaves `to_bow` unchanged. -/
theorem to_bow_perm_invariant (wordvec wordvec' : List Nat) (n : Nat)
    (hperm : wordvec.Perm wordvec') :
    to_bow wordvec n = to_bow wordvec' n := by
  have h1 := to_bow_length wordvec n
  have h2 := to_bow_length wordvec' n
  apply List.ext_getElem (by rw [h1, h2])
  intro k hk1 hk2
  have hk : k < n := by rw [← h1]; exact hk1
  have e1 := to_bow_getD wordvec n k hk
  have e2 := to_bow_getD wordvec' n k hk
  have := e1.trans ((hperm.count_eq k).trans e2.symm)
  rw [List.getD_eq_getElem _ _ hk1, List.getD_eq_getElem _ _ hk2] at this
  exact this

theorem to_bow_perm_invariant_witness :
    ([2, 1, 1] : List Nat).Perm [1, 2, 1] ∧ to_bow [2, 1, 1] 4 = to_bow [1, 2, 1] 4 :=
  ⟨by decide, to_bow_perm_invariant [2, 1, 1] [1, 2, 1] 4 (by decide)⟩

/-! ## TF-IDF (2-representing-text.ipynb)

The notebook computes TF-IDF through the external `sklearn` class
`TfidfVectorizer`; the repository's own content is the formula it states:
`w_ij = tf_ij * log (N / df_i)` with `tf_ij` the BoW count of word `i` in
document `j`, `N` the number of documents and `df_i` the number of documents
containing word `i`. -/

/-- `df_i`: the number of documents of the corpus containing word `i`. -/
def docFreq (docs : List (List Nat)) (i : Nat) : Nat :=
  (docs.filter (fun d => decide (i ∈ d))).length

/-- Modelled from the spec: the TF-IDF weight of word `i` in document `j`,
`w_ij = tf_ij * log (N / df_i)`; the implementation (`TfidfVectorizer`) is
external to the repository, so the weight is taken from the notebook's own
formula, with `tf_ij` the number of occurrences of `i` in document `j`. -/
noncomputable def tfidf_weight (docs : List (List Nat)) (j i : Nat) : ℝ :=
  ((docs.getD j []).count i : ℝ)
    * Real.log ((docs.length : ℝ) / (docFreq docs i : ℝ))

/-- C3: the TF-IDF weight of word `i` in document `j` equals the bag-of-words
count `tf_ij` reweighted by inverse document frequency `log (N / df_i)`, and a
word occurring in every document (`df_i = N`) receives weight `0` in every
document. -/
theorem tfidf_weight_eq_bow_reweighted (docs : List (List Nat)) (j i n : Nat)
    (hi : i < n) :
    tfidf_weight docs j i
      = ((to_bow (docs.getD j []) n).getD i 0 : ℝ)
          * Real.log ((docs.length : ℝ) / (docFreq docs i : ℝ)) ∧
    (docFreq docs i = docs.length → tfidf_weight docs j i = 0) := by
  constructor
  · rw [tfidf_weight, to_bow_getD (docs.getD j []) n i hi]
  · intro h
    rw [tfidf_weight, h]
    rcases Nat.eq_zero_or_pos docs.length with h0 | h0
    · rw [h0]
      simp
    · rw [div_self (ne_of_gt (Nat.cast_pos.mpr h0)), Real.log_one, mul_zero]

theorem tfidf_weight_eq_bow_reweighted_witness :
    0 < 2 ∧
    (tfidf_weight [[0, 1], [0]] 0 0
        = ((to_bow (([[0, 1], [0]] : List (List Nat)).getD 0 []) 2).getD 0 0 : ℝ)
            * Real.log ((([[0, 1], [0]] : List (List Nat)).length : ℝ)
                / (docFreq [[0, 1], [0]] 0 : ℝ)) ∧
      (docFreq [[0, 1], [0]] 0 = ([[0, 1], [0]] : List (List Nat)).length →
        tfidf_weight [[0, 1], [0]] 0 0 = 0)) :=
  ⟨by decide, tfidf_weight_eq_bow_reweighted [[0, 1], [0]] 0 0 2 (by decide)⟩

/-! ## Character tokenizer (unnamed notebook, generative networks)

Python source:
```
def char_tokenizer(words):
    return list(words) #[word for word in words]
```
-/

/-- `char_tokenizer`: split a string into the list of its characters
(`list(words)` on a Python string). -/
def char_tokenizer (words : String) : List Char :=
  words.toList

/-- C4: the character tokenizer returns the list of the string's individual
characters in their original order (it equals the string's character data),
its length equals the input string's length, and concatenating the output
characters back into a string reproduces the input. -/
theorem char_tokenizer_spec (words : String) :
    char_tokenizer words = words.data ∧
    (char_tokenizer words).length = words.length ∧
    String.mk (char_tokenizer words) = words := by
  refine ⟨rfl, rfl, ?_⟩
  cases words
  rfl

/-! ## Generic training loop (2-representing-text.ipynb)

Python source:
```
def train_epoch(net,dataloader,lr=0.01,optimizer=None,loss_fn = torch.nn.NLLLoss(),epoch_size=None, report_freq=200):
    optimizer = optimizer or torch.optim.Adam(net.parameters(),lr=lr)
    net.train()
    total_loss,acc,count,i = 0,0,0,0
    for labels,features in dataloader:
        optimizer.zero_grad()
        out = net(features)
        loss = loss_fn(out,labels)
        loss.backward()
        optimizer.step()
        total_loss+=loss
        _,predicted = torch.max(out,1)
        acc+=(predicted==labels).sum()
        count+=len(labels)
        i+=1
        if i%report_freq==0:
            print(f"...: acc=...")
        if epoch_size and count>epoch_size:
            break
    return total_loss.item()/count, acc.item()/count
```
The network, the loss function and the combined
`zero_grad`/`backward`/`optimizer.step` gradient update are external framework
calls and enter the embedding as abstract parameters; the dataloader is a list
of `(labels, features)` batches. -/

/-- Largest entry of a row of scores. -/
def maxVal : List ℚ → ℚ
  | [] => 0
  | [x] => x
  | x :: y :: t => max x (maxVal (y :: t))

/-- Index of the first maximal entry of a row of scores (the index returned by
`torch.max(out,1)` / `torch.argmax` on that row); `0` on an empty row. -/
def argmaxIdx : List ℚ → Nat
  | [] => 0
  | [_] => 0
  | x :: y :: t => if maxVal (y :: t) ≤ x then 0 else argmaxIdx (y :: t) + 1

/-- `(predicted==labels).sum()`: the number of positions where the two index
vectors agree. -/
def countCorrect (predicted labels : List Nat) : Nat :=
  (predicted.zip labels).countP (fun p => decide (p.1 = p.2))

/-- The mutable state of one `train_epoch` call: the model parameters plus the
accumulators `total_loss, acc, count, i`.  `steps` counts how many optimizer
(gradient) steps have been taken and `printed` records the lines written by
the periodic report; both are instrumentation of the loop's observable
behaviour, not extra program state. -/
structure TrainState (P : Type) where
  params : P
  total_loss : ℚ
  acc : Nat
  count : Nat
  i : Nat
  steps : Nat
  printed : List (Nat × ℚ)

/-- The body of the `train_epoch` loop, processing a single
`(labels, features)` batch: forward pass, loss, one gradient step
(`zero_grad`; `backward`; `optimizer.step`, abstracted as `os`),
accumulation of loss / correct predictions / sample count, and the periodic
accuracy report. -/
def train_step {P F : Type} (net : P → F → List (List ℚ))
    (lf : List (List ℚ) → List Nat → ℚ) (os : P → F → List Nat → P)
    (rf : Nat) (st : TrainState P) (b : List Nat × F) : TrainState P :=
  let labels := b.1
  let features := b.2
  let out := net st.params features
  let loss := lf out labels
  let params' := os st.params features labels
  let total_loss' := st.total_loss + loss
  let predicted := out.map argmaxIdx
  let acc' := st.acc + countCorrect predicted labels
  let count' := st.count + labels.length
  let i' := st.i + 1
  let printed' :=
    if i' % rf == 0 then st.printed ++ [(count', (acc' : ℚ) / (count' : ℚ))]
    else st.printed
  ⟨params', total_loss', acc', count', i', st.steps + 1, printed'⟩

/-- The `train_epoch` loop over the dataloader's batches.  The early-stopping
test is Python's `if epoch_size and count>epoch_size: break`: it fires only
when `epoch_size` is not `None` (here `some es`), is truthy (`es ≠ 0`) and the
accumulated sample count exceeds it. -/
def train_loop {P F : Type} (net : P → F → List (List ℚ))
    (lf : List (List ℚ) → List Nat → ℚ) (os : P → F → List Nat → P)
    (epoch_size : Option Nat) (rf : Nat)
    (batches : List (List Nat × F)) (st : TrainState P) : TrainState P :=
  match batches with
  | [] => st
  | b :: rest =>
    let st' := train_step net lf os rf st b
    match epoch_size with
    | none => train_loop net lf os none rf rest st'
    | some es =>
      if es ≠ 0 ∧ es < st'.count then st'
      else train_loop net lf os (some es) rf rest st'

/-- `train_epoch` proper: run the loop from zeroed accumulators and return
`(total_loss/count, acc/count)`. -/
def train_epoch {P F : Type} (net : P → F → List (List ℚ))
    (lf : List (List ℚ) → List Nat → ℚ) (os : P → F → List Nat → P)
    (params0 : P) (epoch_size : Option Nat) (rf : Nat)
    (batches : List (List Nat × F)) : ℚ × ℚ :=
  let st := train_loop net lf os epoch_size rf batches ⟨params0, 0, 0, 0, 0, 0, []⟩
  (st.total_loss / (st.count : ℚ), (st.acc : ℚ) / (st.count : ℚ))

theorem train_foldl_steps {P F : Type} (net : P → F → List (List ℚ))
    (lf : List (List ℚ) → List Nat → ℚ) (os : P → F → List Nat → P) (rf : Nat)
    (l : List (List Nat × F)) :
    ∀ st : TrainState P,
      (List.foldl (train_step net lf os rf) st l).steps = st.steps + l.length ∧
      (List.foldl (train_step net lf os rf) st l).i = st.i + l.length := by
  induction l with
  | nil => intro st; simp
  | cons b rest ih =>
    intro st
    have h := ih (train_step net lf os rf st b)
    simp only [List.foldl_cons, List.length_cons]
    constructor
    · rw [h.1]; simp [train_step]; ring
    · rw [h.2]; simp [train_step]; ring

theorem train_loop_front {P F : Type} (net : P → F → List (List ℚ))
    (lf : List (List ℚ) → List Nat → ℚ) (os : P → F → List Nat → P)
    (es rf : Nat) (hes : 0 < es) :
    ∀ (batches : List (List Nat × F)) (st : TrainState P),
    ∃ m, m ≤ batches.length ∧
      train_loop net lf os (some es) rf batches st
        = List.foldl (train_step net lf os rf) st (batches.take m) ∧
      (∀ k, 1 ≤ k → k < m →
        (List.foldl (train_step net lf os rf) st (batches.take k)).count ≤ es) ∧
      (m < batches.length →
        es < (List.foldl (train_step net lf os rf) st (batches.take m)).count) := by
  intro batches
  induction batches with
  | nil =>
    intro st
    exact ⟨0, Nat.le_refl 0, rfl, fun k h1 h2 => absurd h2 (by omega),
      fun h => absurd h (by simp)⟩
  | cons b rest ih =>
    intro st
    by_cases hc : es < (train_step net lf os rf st b).count
    · refine ⟨1, by simp, ?_, ?_, ?_⟩
      · rw [train_loop]
        simp only [if_pos (And.intro (Nat.pos_iff_ne_zero.mp hes) hc)]
        simp
      · intro k h1 h2; omega
      · intro _
        simpa using hc
    · obtain ⟨m, hm, heq, hpre, hexc⟩ := ih (train_step net lf os rf st b)
      refine ⟨m + 1, by simpa using hm, ?_, ?_, ?_⟩
      · rw [train_loop]
        simp only [if_neg (fun h : es ≠ 0 ∧ es < _ => hc h.2)]
        rw [heq, List.take_succ_cons, List.foldl_cons]
      · intro k h1 h2
        cases k with
        | zero => omega
        | succ j =>
          rw [List.take_succ_cons, List.foldl_cons]
          cases j with
          | zero =>
            simpa using Nat.le_of_not_lt hc
          | succ j' =>
            exact hpre (j' + 1) (by omega) (by omega)
      · intro hlen
        rw [List.take_succ_cons, List.foldl_cons]
        exact hexc (by simpa using hlen)

/-- The behaviour claimed for `train_epoch`, as one proposition: the loop body
performs one gradient step per batch and accumulates loss, correct
predictions and sample count, printing the accumulated accuracy every `rf`
batches; the loop processes a prefix of the batch list, stopping early
exactly when the accumulated sample count exceeds `es`; and the call returns
`(total_loss/count, acc/count)`. -/
def TrainEpochClaim {P F : Type} (net : P → F → List (List ℚ))
    (lf : List (List ℚ) → List Nat → ℚ) (os : P → F → List Nat → P)
    (params0 : P) (es rf : Nat) (batches : List (List Nat × F)) : Prop :=
  (∀ (s : TrainState P) (b : List Nat × F),
    (train_step net lf os rf s b).params = os s.params b.2 b.1 ∧
    (train_step net lf os rf s b).steps = s.steps + 1 ∧
    (train_step net lf os rf s b).total_loss = s.total_loss + lf (net s.params b.2) b.1 ∧
    (train_step net lf os rf s b).acc
      = s.acc + countCorrect ((net s.params b.2).map argmaxIdx) b.1 ∧
    (train_step net lf os rf s b).count = s.count + b.1.length ∧
    (train_step net lf os rf s b).printed
      = (if (s.i + 1) % rf == 0
         then s.printed ++ [((train_step net lf os rf s b).count,
           ((train_step net lf os rf s b).acc : ℚ)
             / ((train_step net lf os rf s b).count : ℚ))]
         else s.printed)) ∧
  (∀ st : TrainState P, ∃ m, m ≤ batches.length ∧
    train_loop net lf os (some es) rf batches st
      = List.foldl (train_step net lf os rf) st (batches.take m) ∧
    (train_loop net lf os (some es) rf batches st).steps = st.steps + m ∧
    (train_loop net lf os (some es) rf batches st).i = st.i + m ∧
    (∀ k, 1 ≤ k → k < m →
      (List.foldl (train_step net lf os rf) st (batches.take k)).count ≤ es) ∧
    (m < batches.length →
      es < (List.foldl (train_step net lf os rf) st (batches.take m)).count)) ∧
  train_epoch net lf os params0 (some es) rf batches
    = ((train_loop net lf os (some es) rf batches ⟨params0, 0, 0, 0, 0, 0, []⟩).total_loss
         / ((train_loop net lf os (some es) rf batches ⟨params0, 0, 0, 0, 0, 0, []⟩).count : ℚ),
       ((train_loop net lf os (some es) rf batches ⟨params0, 0, 0, 0, 0, 0, []⟩).acc : ℚ)
         / ((train_loop net lf os (some es) rf batches ⟨params0, 0, 0, 0, 0, 0, []⟩).count : ℚ))

/-- C6 counterexample: with `epoch_size = 0` (a given epoch size), the loop
does **not** stop as soon as the processed-sample count exceeds it: Python's
truthiness test `if epoch_size and count>epoch_size` is falsy for `0`.  On
two one-sample batches the count already exceeds `0` after the first batch,
yet both batches are processed (`i = 2`). -/
theorem train_epoch_epoch_size_zero_counterexample :
    (train_loop (fun (_ : Unit) (_ : Unit) => [[(0 : ℚ)]]) (fun _ _ => 0)
        (fun p _ _ => p) (some 0) 200 [([0], ()), ([0], ())]
        ⟨(), 0, 0, 0, 0, 0, []⟩).i = 2 ∧
    (train_step (fun (_ : Unit) (_ : Unit) => [[(0 : ℚ)]]) (fun _ _ => 0)
        (fun p _ _ => p) 200 ⟨(), 0, 0, 0, 0, 0, []⟩ ([0], ())).count = 1 := by
  exact ⟨rfl, rfl⟩

/-- C6 (amended): for every **positive** `epoch_size`, `train_epoch` performs
exactly one gradient step per processed batch, accumulates total loss and
correct-prediction count over all processed samples, prints the accumulated
accuracy every `report_freq` batches, stops early as soon as the number of
processed samples exceeds `epoch_size`, and returns
`(total loss / processed samples, correct / processed samples)`.
(With `epoch_size = 0` the early stop never fires, see the counterexample.) -/
theorem train_epoch_pos_epoch_size {P F : Type} (net : P → F → List (List ℚ))
    (lf : List (List ℚ) → List Nat → ℚ) (os : P → F → List Nat → P)
    (params0 : P) (es rf : Nat) (batches : List (List Nat × F)) (hes : 0 < es) :
    TrainEpochClaim net lf os params0 es rf batches := by
  refine ⟨fun s b => ⟨rfl, rfl, rfl, rfl, rfl, rfl⟩, ?_, rfl⟩
  intro st
  obtain ⟨m, hm, heq, hpre, hexc⟩ := train_loop_front net lf os es rf hes batches st
  have hsteps := train_foldl_steps net lf os rf (batches.take m) st
  have hlen : (batches.take m).length = m := by
    rw [List.length_take]
    omega
  refine ⟨m, hm, heq, ?_, ?_, hpre, hexc⟩
  · rw [heq, hsteps.1, hlen]
  · rw [heq, hsteps.2, hlen]

theorem train_epoch_pos_epoch_size_witness :
    0 < 1 ∧ TrainEpochClaim (fun (_ : Unit) (_ : Unit) => [[(0 : ℚ)]])
      (fun _ _ => 0) (fun p _ _ => p) () 1 1 [([0], ())] :=
  ⟨by decide, train_epoch_pos_epoch_size (fun (_ : Unit) (_ : Unit) => [[(0 : ℚ)]])
    (fun _ _ => 0) (fun p _ _ => p) () 1 1 [([0], ())] (by decide)⟩

/-! ## BERT evaluation loop (6-attention-transformers.ipynb)

Python source:
```
model.eval()
iterations = 100
acc = 0
i = 0
for (labels,heads,texts),_ in test_iter:
    labels = labels.to(device)-1
    texts = texts.to(device)
    texts = torch.transpose(texts,0,1)
    _, out = model(texts, labels=labels)[:2]
    labs = out.argmax(dim=1)
    acc += torch.mean((labs==labels).type(torch.float32))
    i+=1
    if i>iterations: break
```
The model's forward pass (including the transpose of its input) is an
abstract parameter returning the per-sample logits of the batch. -/

/-- The state the evaluation loop mutates: the model parameters and the
accumulators `acc` and `i`. -/
structure EvalState (P : Type) where
  params : P
  acc : ℚ
  i : Nat

/-- The evaluation loop: per batch, shift the labels down by one, run the
model forward, take the per-row argmax and accumulate the batch's mean
accuracy; stop after the counter passes `iterations`. -/
def eval_loop {P F : Type} (model : P → F → List (List ℚ)) (iterations : Nat)
    (batches : List (List Nat × F)) (st : EvalState P) : EvalState P :=
  match batches with
  | [] => st
  | (labels, texts) :: rest =>
    let labels' := labels.map (fun l => l - 1)
    let out := model st.params texts
    let labs := out.map argmaxIdx
    let st' : EvalState P :=
      ⟨st.params, st.acc + (countCorrect labs labels' : ℚ) / (labels'.length : ℚ),
        st.i + 1⟩
    if iterations < st'.i then st'
    else eval_loop model iterations rest st'

/-- C5: the evaluation loop takes no gradient step: every processed batch only
runs the model forward and accumulates accuracy, and after the loop completes
the model parameters hold exactly the value they held before the loop
started. -/
theorem eval_loop_preserves_params {P F : Type} (model : P → F → List (List ℚ))
    (iterations : Nat) (batches : List (List Nat × F)) (st : EvalState P) :
    (eval_loop model iterations batches st).params = st.params := by
  induction batches generalizing st with
  | nil => rfl
  | cons b rest ih =>
    obtain ⟨labels, texts⟩ := b
    rw [eval_loop]
    by_cases h : iterations < st.i + 1
    · simp [h]
    · simp [h, ih]

/-! ## encode_text and get_batch (unnamed notebook, generative networks)

Python source:
```
def encode_text(s):
    return torch.LongTensor([TEXT.vocab.stoi[t] for t in s])

nchars = 100

def get_batch(s,nchars=nchars):
    ins = torch.zeros(len(s)-nchars,nchars,dtype=torch.long,device=device)
    outs = torch.zeros(len(s)-nchars,nchars,dtype=torch.long,device=device)
    for i in range(len(s)-nchars):
        ins[i] = encode_text(s[i:i+nchars])
        outs[i] = encode_text(s[i+1:i+nchars+1])
    return ins,outs
```
`TEXT.vocab.stoi` is a torchtext default-dict (total: unknown characters map
to the `<unk>` index), passed as the parameter `stoi`.  `torch.zeros` raises
when `len(s) - nchars` is negative and accepts a zero first dimension, so
`get_batch` is fallible exactly when `len(s) < nchars`. -/

/-- `encode_text(s)`: the list of vocabulary indices of the characters. -/
def encode_text (stoi : Char → Nat) (s : List Char) : List Nat :=
  s.map stoi

/-- `get_batch(s, nchars)`: allocate two `(len(s)-nchars) × nchars` tensors —
a torch error when `len(s) - nchars < 0` — and fill row `i` of the first with
the encoding of `s[i:i+nchars]` and row `i` of the second with the encoding of
`s[i+1:i+nchars+1]`. -/
def get_batch (stoi : Char → Nat) (nchars : Nat) (s : List Char) :
    Except String (List (List Nat) × List (List Nat)) :=
  if (s.length : Int) - (nchars : Int) < 0 then
    .error "negative dimension"
  else
    .ok ((List.range (s.length - nchars)).map
           (fun i => encode_text stoi ((s.drop i).take nchars)),
         (List.range (s.length - nchars)).map
           (fun i => encode_text stoi ((s.drop (i + 1)).take nchars)))

theorem getD_map_range {α : Type} (f : Nat → α) (n i : Nat) (d : α) (h : i < n) :
    ((List.range n).map f).getD i d = f i := by
  have hlen : i < ((List.range n).map f).length := by simpa using h
  rw [List.getD_eq_getElem _ _ hlen, List.getElem_map, List.getElem_range]

theorem encode_slice_length (stoi : Char → Nat) (s : List Char) (i n : Nat)
    (hin : i + n ≤ s.length) :
    (encode_text stoi ((s.drop i).take n)).length = n := by
  rw [encode_text, List.length_map, List.length_take, List.length_drop]
  omega

theorem encode_slice_getD (stoi : Char → Nat) (s : List Char) (i n j : Nat)
    (hin : i + n ≤ s.length) (hj : j < n) :
    (encode_text stoi ((s.drop i).take n)).getD j 0 = stoi (s.getD (i + j) ' ') := by
  have hlen := encode_slice_length stoi s i n hin
  have hj' : j < (encode_text stoi ((s.drop i).take n)).length := by omega
  have hs : i + j < s.length := by omega
  rw [List.getD_eq_getElem _ _ hj']
  simp only [encode_text]
  rw [List.getElem_map, List.getElem_take, List.getElem_drop,
    List.getD_eq_getElem s ' ' hs]

/-- The full behaviour claimed for `get_batch` on a sequence longer than
`nchars`: it succeeds with two matrices of `len(s) - nchars` rows of width
`nchars`; row `i` of the first encodes `s[i:i+nchars]` and row `i` of the
second encodes `s[i+1:i+nchars+1]`; each output row is the matching input
row shifted one position left (entry `j` of the output row is entry `j+1` of
the input row) with the next character of `s` appended as its last entry;
and input row `i+1` equals output row `i`. -/
def GetBatchRowsClaim (stoi : Char → Nat) (nchars : Nat) (s : List Char) : Prop :=
  ∃ ins outs : List (List Nat),
    get_batch stoi nchars s = .ok (ins, outs) ∧
    ins.length = s.length - nchars ∧ outs.length = s.length - nchars ∧
    (∀ i, i < s.length - nchars →
      ins.getD i [] = encode_text stoi ((s.drop i).take nchars) ∧
      outs.getD i [] = encode_text stoi ((s.drop (i + 1)).take nchars) ∧
      (ins.getD i []).length = nchars ∧ (outs.getD i []).length = nchars ∧
      (∀ j, j + 1 < nchars →
        (outs.getD i []).getD j 0 = (ins.getD i []).getD (j + 1) 0) ∧
      (0 < nchars →
        (outs.getD i []).getD (nchars - 1) 0 = stoi (s.getD (i + nchars) ' '))) ∧
    (∀ i, i + 1 < s.length - nchars → ins.getD (i + 1) [] = outs.getD i [])

/-- C8: for every sequence with `len(s) > nchars`, `get_batch(s, nchars)`
returns two `(len(s)-nchars) × nchars` matrices whose rows are the
consecutive windows of `s` and their one-step-left shifts, with consecutive
input/output rows overlapping as claimed. -/
theorem get_batch_rows (stoi : Char → Nat) (nchars : Nat) (s : List Char)
    (h : nchars < s.length) : GetBatchRowsClaim stoi nchars s := by
  refine ⟨(List.range (s.length - nchars)).map
      (fun i => encode_text stoi ((s.drop i).take nchars)),
    (List.range (s.length - nchars)).map
      (fun i => encode_text stoi ((s.drop (i + 1)).take nchars)),
    ?_, by simp, by simp, ?_, ?_⟩
  · rw [get_batch, if_neg (by omega)]
  · intro i hi
    have hins : ((List.range (s.length - nchars)).map
        (fun i => encode_text stoi ((s.drop i).take nchars))).getD i []
          = encode_text stoi ((s.drop i).take nchars) :=
      getD_map_range _ _ _ _ hi
    have houts : ((List.range (s.length - nchars)).map
        (fun i => encode_text stoi ((s.drop (i + 1)).take nchars))).getD i []
          = encode_text stoi ((s.drop (i + 1)).take nchars) :=
      getD_map_range _ _ _ _ hi
    have hinb : i + nchars ≤ s.length := by omega
    have houtb : (i + 1) + nchars ≤ s.length := by omega
    refine ⟨hins, houts, ?_, ?_, ?_, ?_⟩
    · rw [hins]; exact encode_slice_length stoi s i nchars hinb
    · rw [houts]; exact encode_slice_length stoi s (i + 1) nchars houtb
    · intro j hj
      rw [hins, houts, encode_slice_getD stoi s (i + 1) nchars j houtb (by omega),
        encode_slice_getD stoi s i nchars (j + 1) hinb hj]
      have : i + 1 + j = i + (j + 1) := by omega
      rw [this]
    · intro hn
      rw [houts, encode_slice_getD stoi s (i + 1) nchars (nchars - 1) houtb (by omega)]
      have : i + 1 + (nchars - 1) = i + nchars := by omega
      rw [this]
  · intro i hi
    have h1 : ((List.range (s.length - nchars)).map
        (fun i => encode_text stoi ((s.drop i).take nchars))).getD (i + 1) []
          = encode_text stoi ((s.drop (i + 1)).take nchars) :=
      getD_map_range _ _ _ _ hi
    have h2 : ((List.range (s.length - nchars)).map
        (fun i => encode_text stoi ((s.drop (i + 1)).take nchars))).getD i []
          = encode_text stoi ((s.drop (i + 1)).take nchars) :=
      getD_map_range _ _ _ _ (by omega)
    rw [h1, h2]

theorem get_batch_rows_witness :
    1 < 3 ∧ GetBatchRowsClaim (fun c => c.toNat) 1 ['a', 'b', 'c'] :=
  ⟨by decide, get_batch_rows (fun c => c.toNat) 1 ['a', 'b', 'c'] (by decide)⟩

/-! ## Generative training loop (unnamed notebook)

Python source:
```
samples_to_train = 10000
...
for i,x in enumerate(train_dataset.examples):
    if len(x.Text)-nchars<10:
        continue
    samples_to_train-=1
    if not samples_to_train: break
    text_in, text_out = get_batch(x.Text)
    optimizer.zero_grad()
    out,s = net(text_in)
    loss = torch.nn.functional.cross_entropy(out.view(-1,vocab_size),text_out.flatten())
    loss.backward()
    optimizer.step()
    if i%1000==0: ...
```
`gstep` bundles the framework calls of one iteration (forward pass,
cross-entropy loss, backward pass, optimizer step) and may raise; `calls`
records the texts on which `get_batch` has been invoked. -/

def gen_train_loop {P : Type} (stoi : Char → Nat) (nchars : Nat)
    (gstep : P → List (List Nat) × List (List Nat) → Except String P)
    (examples : List (List Char)) (samples_to_train : Int) (params : P)
    (calls : List (List Char)) : Except String (P × List (List Char)) :=
  match examples with
  | [] => .ok (params, calls)
  | x :: rest =>
    if (x.length : Int) - (nchars : Int) < 10 then
      gen_train_loop stoi nchars gstep rest samples_to_train params calls
    else if samples_to_train - 1 = 0 then .ok (params, calls)
    else
      match get_batch stoi nchars x with
      | .error e => .error e
      | .ok tio =>
        match gstep params tio with
        | .error e => .error e
        | .ok params' =>
          gen_train_loop stoi nchars gstep rest (samples_to_train - 1) params'
            (calls ++ [x])

/-- C9 counterexample: at `len(s) = nchars` (here both `2`) `get_batch` does
**not** fail: `torch.zeros` accepts a zero first dimension, the fill loop body
never runs, and the call returns two empty batches. -/
theorem get_batch_len_eq_nchars_counterexample :
    get_batch (fun _ => 0) 2 ['a', 'b'] = .ok ([], []) := rfl

/-- The amended safety claim around `get_batch`: the call fails exactly on
sequences strictly shorter than `nchars` (at `len(s) = nchars` it succeeds
with two empty batches); every sequence passing the generative training
loop's guard `len(x) - nchars < 10` has length at least `nchars + 10` and
`get_batch` succeeds on it; and every text the loop records as an argument of
`get_batch` has length at least `nchars + 10`, so the failing branch is
unreachable inside the loop. -/
def GetBatchGuardClaim {P : Type} (stoi : Char → Nat) (nchars : Nat)
    (gstep : P → List (List Nat) × List (List Nat) → Except String P) : Prop :=
  (∀ s : List Char, s.length < nchars →
    get_batch stoi nchars s = .error "negative dimension") ∧
  (∀ s : List Char, s.length = nchars → get_batch stoi nchars s = .ok ([], [])) ∧
  (∀ s : List Char, ¬ ((s.length : Int) - (nchars : Int) < 10) →
    nchars + 10 ≤ s.length ∧ ∃ v, get_batch stoi nchars s = .ok v) ∧
  (∀ (examples : List (List Char)) (samples : Int) (params : P)
      (calls : List (List Char)) (res : P × List (List Char)),
    (∀ x ∈ calls, nchars + 10 ≤ x.length) →
    gen_train_loop stoi nchars gstep examples samples params calls = .ok res →
    ∀ x ∈ res.2, nchars + 10 ≤ x.length)

/-- C9 (amended): `get_batch(s, nchars)` fails for `len(s) < nchars` and
returns empty batches at `len(s) = nchars`; the generative training loop
skips every example of length below `nchars + 10`, so within the loop
`get_batch` is only called on sequences of length at least `nchars + 10`,
where it cannot fail. -/
theorem get_batch_guard {P : Type} (stoi : Char → Nat) (nchars : Nat)
    (gstep : P → List (List Nat) × List (List Nat) → Except String P) :
    GetBatchGuardClaim stoi nchars gstep := by
  refine ⟨?_, ?_, ?_, ?_⟩
  · intro s hs
    rw [get_batch, if_pos (by omega)]
  · intro s hs
    rw [get_batch, if_neg (by omega)]
    simp [hs]
  · intro s hs
    refine ⟨by omega, ?_⟩
    rw [get_batch, if_neg (by omega)]
    exact ⟨_, rfl⟩
  · intro examples
    induction examples with
    | nil =>
      intro samples params calls res hcalls heq x hx
      rw [gen_train_loop] at heq
      cases heq
      exact hcalls x hx
    | cons y rest ih =>
      intro samples params calls res hcalls heq x hx
      rw [gen_train_loop] at heq
      by_cases hg : (y.length : Int) - (nchars : Int) < 10
      · rw [if_pos hg] at heq
        exact ih samples params calls res hcalls heq x hx
      · rw [if_neg hg] at heq
        by_cases hsam : samples - 1 = 0
        · rw [if_pos hsam] at heq
          cases heq
          exact hcalls x hx
        · rw [if_neg hsam] at heq
          rcases hb : get_batch stoi nchars y with e | tio
          · rw [hb] at heq
            cases heq
          · rw [hb] at heq
            dsimp only at heq
            rcases hstep : gstep params tio with e | params'
            · rw [hstep] at heq
              cases heq
            · rw [hstep] at heq
              refine ih (samples - 1) params' (calls ++ [y]) res ?_ heq x hx
              intro z hz
              rcases List.mem_append.mp hz with hz | hz
              · exact hcalls z hz
              · have : z = y := by simpa using hz
                subst this
                omega

/-! ## Error propagation through the loops

The loops call into the external framework (forward pass, loss, gradient
step) without any `try`/`except`: a raised framework error terminates the
call and reaches the caller unchanged.  `train_stepE`/`train_loopE` are the
`train_epoch` loop with its framework calls made fallible; together with
`gen_train_loop` above they embed the two cited training loops. -/

/-- `train_epoch`'s loop body with fallible framework calls. -/
def train_stepE {P F : Type} (net : P → F → Except String (List (List ℚ)))
    (lf : List (List ℚ) → List Nat → Except String ℚ)
    (os : P → F → List Nat → Except String P) (rf : Nat)
    (st : TrainState P) (b : List Nat × F) : Except String (TrainState P) :=
  match net st.params b.2 with
  | .error e => .error e
  | .ok out =>
    match lf out b.1 with
    | .error e => .error e
    | .ok loss =>
      match os st.params b.2 b.1 with
      | .error e => .error e
      | .ok params' =>
        let acc' := st.acc + countCorrect (out.map argmaxIdx) b.1
        let count' := st.count + b.1.length
        let printed' :=
          if (st.i + 1) % rf == 0 then
            st.printed ++ [(count', (acc' : ℚ) / (count' : ℚ))]
          else st.printed
        .ok ⟨params', st.total_loss + loss, acc', count',
          st.i + 1, st.steps + 1, printed'⟩

/-- `train_epoch`'s loop with fallible framework calls. -/
def train_loopE {P F : Type} (net : P → F → Except String (List (List ℚ)))
    (lf : List (List ℚ) → List Nat → Except String ℚ)
    (os : P → F → List Nat → Except String P)
    (epoch_size : Option Nat) (rf : Nat)
    (batches : List (List Nat × F)) (st : TrainState P) :
    Except String (TrainState P) :=
  match batches with
  | [] => .ok st
  | b :: rest =>
    match train_stepE net lf os rf st b with
    | .error e => .error e
    | .ok st' =>
      match epoch_size with
      | none => train_loopE net lf os none rf rest st'
      | some es =>
        if es ≠ 0 ∧ es < st'.count then .ok st'
        else train_loopE net lf os (some es) rf rest st'

/-- No repository function catches a framework error: an error raised by the
forward pass, the loss or the gradient step inside `train_epoch`'s loop body
terminates the loop with that very error, and an error raised by the
framework calls of the generative training loop's iteration does the same
there. -/
def NoCatchClaim {P F Q : Type} (net : P → F → Except String (List (List ℚ)))
    (lf : List (List ℚ) → List Nat → Except String ℚ)
    (os : P → F → List Nat → Except String P)
    (epoch_size : Option Nat) (rf : Nat) (stoi : Char → Nat) (nchars : Nat)
    (gstep : Q → List (List Nat) × List (List Nat) → Except String Q) : Prop :=
  (∀ (st : TrainState P) (b : List Nat × F) (e : String),
    net st.params b.2 = .error e → train_stepE net lf os rf st b = .error e) ∧
  (∀ (st : TrainState P) (b : List Nat × F) (out : List (List ℚ)) (e : String),
    net st.params b.2 = .ok out → lf out b.1 = .error e →
    train_stepE net lf os rf st b = .error e) ∧
  (∀ (st : TrainState P) (b : List Nat × F) (out : List (List ℚ)) (loss : ℚ)
      (e : String),
    net st.params b.2 = .ok out → lf out b.1 = .ok loss →
    os st.params b.2 b.1 = .error e → train_stepE net lf os rf st b = .error e) ∧
  (∀ (st : TrainState P) (b : List Nat × F) (rest : List (List Nat × F))
      (e : String),
    train_stepE net lf os rf st b = .error e →
    train_loopE net lf os epoch_size rf (b :: rest) st = .error e) ∧
  (∀ (x : List Char) (rest : List (List Char)) (samples : Int) (params : Q)
      (calls : List (List Char)) (tio : List (List Nat) × List (List Nat))
      (e : String),
    ¬ ((x.length : Int) - (nchars : Int) < 10) → samples - 1 ≠ 0 →
    get_batch stoi nchars x = .ok tio → gstep params tio = .error e →
    gen_train_loop stoi nchars gstep (x :: rest) samples params calls = .error e)

/-- C7: framework errors propagate unchanged through the repository's loops:
no repository code intercepts, retries, or substitutes a result. -/
theorem framework_errors_propagate {P F Q : Type}
    (net : P → F → Except String (List (List ℚ)))
    (lf : List (List ℚ) → List Nat → Except String ℚ)
    (os : P → F → List Nat → Except String P)
    (epoch_size : Option Nat) (rf : Nat) (stoi : Char → Nat) (nchars : Nat)
    (gstep : Q → List (List Nat) × List (List Nat) → Except String Q) :
    NoCatchClaim net lf os epoch_size rf stoi nchars gstep := by
  refine ⟨?_, ?_, ?_, ?_, ?_⟩
  · intro st b e h
    rw [train_stepE, h]
  · intro st b out e h1 h2
    rw [train_stepE, h1]
    dsimp only
    rw [h2]
  · intro st b out loss e h1 h2 h3
    rw [train_stepE, h1]
    dsimp only
    rw [h2]
    dsimp only
    rw [h3]
  · intro st b rest e h
    rw [train_loopE, h]
  · intro x rest samples params calls tio e hg hsam hb hstep
    rw [gen_train_loop, if_neg hg, if_neg hsam, hb]
    dsimp only
    rw [hstep]

/-! ## generate (unnamed notebook)

Python source:
```
def generate(net,size=100,start='today '):
        chars = list(start)
        out, s = net(encode_text(chars).view(1,-1).to(device))
        for i in range(size):
            nc = torch.argmax(out[0][-1])
            chars.append(TEXT.vocab.itos[nc])
            out, s = net(nc.view(1,-1),s)
        return ''.join(chars)
```
The network is abstracted as a state-passing function from an input index
sequence (the batch dimension collapsed) to one logit row per input position
plus the new recurrent state; `itos` maps a vocabulary index to the token
**string** stored in the vocabulary (torchtext tokens such as `<unk>` have
more than one character, hence the claim's single-character proviso).
`out[0][-1]` on an empty output is a framework error, so the loop is
`Option`-valued. -/

/-- The generation loop of `generate`: `size` times, take the last output row
`out[0][-1]` (`none` when there is no row), pick the argmax index `nc`,
append the vocabulary token `itos[nc]` to the collected strings, and feed
`nc` back through the network with the running state. -/
def gen_loop {S : Type} (net : Option S → List Nat → List (List ℚ) × S)
    (itos : Nat → List Char) :
    Nat → List (List ℚ) → S → List (List Char) → Option (List (List Char))
  | 0, _, _, chars => some chars
  | k + 1, out, s, chars =>
    match out.getLast? with
    | none => none
    | some row =>
      let nc := argmaxIdx row
      let p := net (some s) [nc]
      gen_loop net itos k p.1 p.2 (chars ++ [itos nc])

/-- `generate(net, size, start)`: run the whole start string through the
network once, generate `size` vocabulary tokens by repeated argmax, and join
(`''.join(chars)`). -/
def generate {S : Type} (net : Option S → List Nat → List (List ℚ) × S)
    (itos : Nat → List Char) (stoi : Char → Nat) (size : Nat)
    (start : List Char) : Option (List Char) :=
  let p := net none (encode_text stoi start)
  (gen_loop net itos size p.1 p.2 (start.map (fun c => [c]))).map List.flatten

/-- The sequence of vocabulary tokens the generation loop chooses, in order
(the strings `generate` appends after the start characters). -/
def gen_tokens {S : Type} (net : Option S → List Nat → List (List ℚ) × S)
    (itos : Nat → List Char) :
    Nat → List (List ℚ) → S → Option (List (List Char))
  | 0, _, _ => some []
  | k + 1, out, s =>
    match out.getLast? with
    | none => none
    | some row =>
      let nc := argmaxIdx row
      let p := net (some s) [nc]
      (gen_tokens net itos k p.1 p.2).map (fun ts => itos nc :: ts)

theorem gen_loop_eq_tokens {S : Type} (net : Option S → List Nat → List (List ℚ) × S)
    (itos : Nat → List Char) :
    ∀ (k : Nat) (out : List (List ℚ)) (s : S) (chars : List (List Char)),
      gen_loop net itos k out s chars
        = (gen_tokens net itos k out s).map (fun ts => chars ++ ts) := by
  intro k
  induction k with
  | zero => intro out s chars; simp [gen_loop, gen_tokens]
  | succ k ih =>
    intro out s chars
    rw [gen_loop, gen_tokens]
    rcases out.getLast? with _ | row
    · rfl
    · dsimp only
      rw [ih, Option.map_map]
      congr 1
      funext ts
      simp

theorem gen_tokens_total {S : Type} (net : Option S → List Nat → List (List ℚ) × S)
    (itos : Nat → List Char)
    (hnet : ∀ (s : Option S) (x : List Nat), x ≠ [] → (net s x).1 ≠ []) :
    ∀ (k : Nat) (out : List (List ℚ)) (s : S), out ≠ [] →
      ∃ toks, gen_tokens net itos k out s = some toks ∧ toks.length = k := by
  intro k
  induction k with
  | zero => intro out s _; exact ⟨[], rfl, rfl⟩
  | succ k ih =>
    intro out s hout
    rcases hrow : out.getLast? with _ | row
    · exact absurd (List.getLast?_eq_none_iff.mp hrow) hout
    · obtain ⟨toks, htoks, hlen⟩ :=
        ih (net (some s) [argmaxIdx row]).1 (net (some s) [argmaxIdx row]).2
          (hnet (some s) [argmaxIdx row] (by simp))
      refine ⟨itos (argmaxIdx row) :: toks, ?_, by simp [hlen]⟩
      rw [gen_tokens, hrow]
      dsimp only
      rw [htoks]
      rfl

theorem flatten_map_singleton {α : Type} (l : List α) :
    (l.map (fun c => [c])).flatten = l := by
  induction l with
  | nil => rfl
  | cons a t ih => simp [ih]

theorem flatten_length_of_singletons {α : Type} (ts : List (List α))
    (h : ∀ t ∈ ts, t.length = 1) : ts.flatten.length = ts.length := by
  induction ts with
  | nil => rfl
  | cons a t ih =>
    have ha := h a (by simp)
    have ih' := ih (fun u hu => h u (by simp [hu]))
    simp [ha, ih']
    omega

/-- The behaviour claimed for `generate`: the chosen vocabulary tokens are
exactly `size` many, the returned string is the start string followed by
those tokens joined in order, and when every chosen token is a single
character the returned string has length `len(start) + size`. -/
def GenerateClaim {S : Type} (net : Option S → List Nat → List (List ℚ) × S)
    (itos : Nat → List Char) (stoi : Char → Nat) (size : Nat)
    (start : List Char) : Prop :=
  ∃ toks : List (List Char),
    gen_tokens net itos size (net none (encode_text stoi start)).1
      (net none (encode_text stoi start)).2 = some toks ∧
    toks.length = size ∧
    generate net itos stoi size start = some (start ++ toks.flatten) ∧
    ((∀ t ∈ toks, t.length = 1) →
      (start ++ toks.flatten).length = start.length + size)

/-- C10 (amended): for every network that (like the notebook's LSTM) returns
one output row per input position, every `size ≥ 0` and every **nonempty**
start string, `generate` returns the start string followed by exactly `size`
vocabulary tokens chosen by repeated argmax; when every chosen token is a
single character the result has length `len(start) + size` (not `size`).
(With an empty start the first `out[0][-1]` lookup fails, see the
counterexample.) -/
theorem generate_spec {S : Type} (net : Option S → List Nat → List (List ℚ) × S)
    (itos : Nat → List Char) (stoi : Char → Nat) (size : Nat)
    (start : List Char)
    (hnet : ∀ (s : Option S) (x : List Nat), x ≠ [] → (net s x).1 ≠ [])
    (hstart : start ≠ []) : GenerateClaim net itos stoi size start := by
  have henc : encode_text stoi start ≠ [] := by
    simp [encode_text, hstart]
  obtain ⟨toks, htoks, hlen⟩ :=
    gen_tokens_total net itos hnet size (net none (encode_text stoi start)).1
      (net none (encode_text stoi start)).2
      (hnet none (encode_text stoi start) henc)
  refine ⟨toks, htoks, hlen, ?_, ?_⟩
  · rw [generate]
    rw [gen_loop_eq_tokens, htoks]
    show some ((start.map (fun c => [c]) ++ toks).flatten) = _
    rw [List.flatten_append, flatten_map_singleton]
  · intro hsingle
    rw [List.length_append, flatten_length_of_singletons toks hsingle, hlen]

/-- C10 counterexample: with the empty start string (and a network that, like
the LSTM, returns one output row per input position) the very first
`out[0][-1]` lookup has no row to take, so generation fails instead of
returning a string of `size` tokens. -/
theorem generate_empty_start_counterexample :
    generate (fun (_ : Option Unit) (x : List Nat) => (x.map (fun _ => [(1 : ℚ)]), ()))
      (fun _ => ['a']) (fun _ => 0) 1 [] = none := rfl

theorem generate_spec_witness :
    (∀ (s : Option Unit) (x : List Nat), x ≠ [] →
      ((fun (_ : Option Unit) (x : List Nat) => (x.map (fun _ => [(1 : ℚ)]), ())) s x).1 ≠ []) ∧
    (['t'] : List Char) ≠ [] ∧
    GenerateClaim (fun (_ : Option Unit) (x : List Nat) => (x.map (fun _ => [(1 : ℚ)]), ()))
      (fun _ => ['a']) (fun _ => 0) 2 ['t'] :=
  ⟨fun s x hx => by simpa using hx, by decide,
    generate_spec (fun (_ : Option Unit) (x : List Nat) => (x.map (fun _ => [(1 : ℚ)]), ()))
      (fun _ => ['a']) (fun _ => 0) 2 ['t']
      (fun s x hx => by simpa using hx) (by decide)⟩

end PF
